import Mathlib

/-
Verification development for the PDF annotation engine of AiAnnotate
(server/src/utils/pdfAnnotator.ts and server/src/types/annotations.ts).

Modelling conventions:
- JavaScript strings are modelled as lists of characters (JSStr).
- JavaScript numbers that hold integral values are modelled as Nat or Int;
  the fractional matchTolerance option is modelled as a rational number.
- The regex replace of /\s+/g is modelled by collapseWsAux, a left-to-right
  scan that emits one ASCII space per maximal whitespace run.
- pdf-lib drawing calls are external side effects; the model records the
  data each draw call receives (DrawOp) instead of rendered bytes.
-/

namespace AiAnnotate

/-- JavaScript strings, modelled as character lists. -/
abbrev JSStr := List Char

/-- Whitespace test matching the regex class \s for the characters that
occur in extracted PDF text (space, newline, tab, carriage return,
vertical tab, form feed). -/
def isJsWs (c : Char) : Bool :=
  c == ' ' || c == '\n' || c == '\t' || c == '\r' || c == '\x0b' || c == '\x0c'

/-- Scanner for the regex replacement replace(/\s+/g, " "): emits one
ASCII space at the start of each maximal whitespace run and skips the
rest of the run.  The flag records whether the scanner is currently
inside a whitespace run that has already emitted its space. -/
def collapseWsAux : Bool → JSStr → JSStr
  | _, [] => []
  | true, c :: cs =>
    if isJsWs c then collapseWsAux true cs else c :: collapseWsAux false cs
  | false, c :: cs =>
    if isJsWs c then ' ' :: collapseWsAux true cs else c :: collapseWsAux false cs

/-- replace(/\s+/g, " ") from normalizeText. -/
def collapseWs (s : JSStr) : JSStr := collapseWsAux false s

/-- replace(/[curly single quotes]/g, "'") from normalizeText. -/
def mapSingleQuote (c : Char) : Char :=
  if c = '‘' || c = '’' then '\'' else c

/-- replace(/[curly double quotes]/g, "\x22") from normalizeText. -/
def mapDoubleQuote (c : Char) : Char :=
  if c = '“' || c = '”' then '"' else c

/-- replace(/[en dash, em dash]/g, "-") from normalizeText. -/
def mapDash (c : Char) : Char :=
  if c = '–' || c = '—' then '-' else c

/-- String.prototype.trim: drop whitespace from the front. -/
def trimLeft (s : JSStr) : JSStr := s.dropWhile isJsWs

/-- String.prototype.trim: drop whitespace from the back. -/
def trimRight (s : JSStr) : JSStr := ((s.reverse).dropWhile isJsWs).reverse

/-- String.prototype.trim: drop whitespace from both ends. -/
def trimWs (s : JSStr) : JSStr := trimLeft (trimRight s)

/-- normalizeText from pdfAnnotator.ts: collapse whitespace runs to a
single space, normalize curly quotes and dashes to their ASCII forms,
and trim the ends. -/
def normalizeText (s : JSStr) : JSStr :=
  trimWs (((collapseWs s).map mapSingleQuote).map mapDoubleQuote |>.map mapDash)

/-- String.prototype.toLowerCase, restricted to the ASCII range that
Char.toLower handles; adequate for the latin text this engine receives. -/
def toLowerStr (s : JSStr) : JSStr := s.map Char.toLower

/-- String.prototype.indexOf: the first position at which pat occurs as a
contiguous substring of hay, or none.  indexOf of the empty string is 0. -/
def firstIndexOf (hay pat : JSStr) : Option Nat :=
  if pat.isPrefixOf hay then some 0
  else
    match hay with
    | [] => none
    | _ :: t => (firstIndexOf t pat).map (· + 1)

/-- String.prototype.substring s a b for a less or equal b: the slice of s
between positions a and b, clamped to the string bounds. -/
def jsSubstring (s : JSStr) (a b : Nat) : JSStr := (s.take b).drop a

/-- One cell chain of the Levenshtein dynamic program: given the character
c of str2 for the current row, the remaining characters of str1, the
diagonal cell, the rest of the previous row, and the cell just written,
produce the rest of the current row.  Transcribes the inner for loop of
levenshteinDistance. -/
def levStepAux (c : Char) : JSStr → Nat → List Nat → Nat → List Nat
  | [], _, _, _ => []
  | _ :: _, _, [], _ => []
  | x :: xs, diag, above :: rest, left =>
    let v := if c = x then diag else 1 + min diag (min left above)
    v :: levStepAux c xs above rest v

/-- One row step of the Levenshtein dynamic program: from matrix row i-1
produce row i, whose character of str2 is c.  The leading cell is the
first-column value matrix[i][0] = matrix[i-1][0] + 1. -/
def levStep (s1 : JSStr) (c : Char) (prev : List Nat) : List Nat :=
  match prev with
  | [] => []
  | p0 :: rest => (p0 + 1) :: levStepAux c s1 p0 rest (p0 + 1)

/-- levenshteinDistance from pdfAnnotator.ts: the standard dynamic program
over the matrix whose rows are indexed by prefixes of str2 and columns by
prefixes of str1, evaluated row by row; the answer is the last cell of the
last row. -/
def levenshteinDistance (s1 s2 : JSStr) : Nat :=
  (s2.foldl (fun row c => levStep s1 c row) (List.range (s1.length + 1))).getLastD 0

/-- Math.floor(n * q) for a natural n and a rational q, computed on the
numerator and denominator so that the kernel can evaluate it; the lemma
jsFloorMul_eq_floor identifies it with the mathematical floor. -/
def jsFloorMul (n : Nat) (q : ℚ) : ℤ := ((n : ℤ) * q.num) / (q.den : ℤ)

/-- The enum AnnotationType from annotations.ts. -/
inductive AnnotationType where
  | highlight
  | underline
  | comment
deriving DecidableEq, Repr

/-- The interface AnnotationColor from annotations.ts (channels in [0,1],
alpha optional). -/
structure AnnotationColor where
  r : ℚ
  g : ℚ
  b : ℚ
  a : Option ℚ
deriving DecidableEq, Repr

/-- The interface TextPosition from annotations.ts as produced by
createTextPosition, which always fills every coordinate field. -/
structure TextPosition where
  pageNumber : Nat
  text : JSStr
  x : ℤ
  y : ℤ
  width : Nat
  height : Nat
deriving DecidableEq, Repr

/-- The interface AnnotationInstruction from annotations.ts.  Optional
fields are Option so that absent (undefined) values are representable;
caseSensitive is read through jsTruthy, matching its use as a truthy
test in the source. -/
structure AnnotationInstruction where
  type : AnnotationType
  text : JSStr
  pageNumber : Option Nat
  color : Option AnnotationColor
  comment : Option JSStr
  caseSensitive : Option Bool
deriving DecidableEq, Repr

/-- The interface AnnotationOptions from annotations.ts (every field
optional). -/
structure AnnotationOptions where
  matchTolerance : Option ℚ
  firstMatchOnly : Option Bool
  skipNotFound : Option Bool
  logNotFound : Option Bool
deriving DecidableEq, Repr

/-- Required AnnotationOptions: the options record after merging with the
defaults, as built at the top of annotatePDF. -/
structure RequiredAnnotationOptions where
  matchTolerance : ℚ
  firstMatchOnly : Bool
  skipNotFound : Bool
  logNotFound : Bool
deriving DecidableEq, Repr

/-- DEFAULT_ANNOTATION_OPTIONS from annotations.ts.  The rational 1/10 is
written in constructor form so that the kernel can evaluate it. -/
def DEFAULT_ANNOTATION_OPTIONS : RequiredAnnotationOptions where
  matchTolerance := ⟨1, 10, by decide, by decide⟩
  firstMatchOnly := true
  skipNotFound := true
  logNotFound := true

/-- DEFAULT_COLORS from annotations.ts. -/
def DEFAULT_COLORS : AnnotationType → AnnotationColor
  | .highlight => ⟨1, 1, 0, some ⟨3, 10, by decide, by decide⟩⟩
  | .underline => ⟨1, 0, 0, some 1⟩
  | .comment => ⟨0, ⟨1, 2, by decide, by decide⟩, 1, some ⟨4, 5, by decide, by decide⟩⟩

/-- The spread {...DEFAULT_ANNOTATION_OPTIONS, ...request.options}: absent
fields fall back to the defaults. -/
def mergeOptions (o : Option AnnotationOptions) : RequiredAnnotationOptions :=
  match o with
  | none => DEFAULT_ANNOTATION_OPTIONS
  | some opts =>
    { matchTolerance := opts.matchTolerance.getD DEFAULT_ANNOTATION_OPTIONS.matchTolerance
      firstMatchOnly := opts.firstMatchOnly.getD DEFAULT_ANNOTATION_OPTIONS.firstMatchOnly
      skipNotFound := opts.skipNotFound.getD DEFAULT_ANNOTATION_OPTIONS.skipNotFound
      logNotFound := opts.logNotFound.getD DEFAULT_ANNOTATION_OPTIONS.logNotFound }

/-- The interface PageText from annotations.ts (the optional lines field
is never read by the annotator and is omitted). -/
structure PageText where
  pageNumber : Nat
  text : JSStr
deriving DecidableEq, Repr

/-- The interface ExtractedText from annotations.ts (metadata is never
read by the annotator and is omitted). -/
structure ExtractedText where
  pages : List PageText
  totalPages : Nat
deriving DecidableEq, Repr

/-- The interface AnnotationResult from annotations.ts. -/
structure AnnotationResult where
  instruction : AnnotationInstruction
  success : Bool
  matchedText : Option JSStr
  position : Option TextPosition
  error : Option JSStr
deriving DecidableEq, Repr

/-- The interface AnnotationRequest from annotations.ts. -/
structure AnnotationRequest where
  instructions : List AnnotationInstruction
  options : Option AnnotationOptions
deriving DecidableEq, Repr

/-- The interface AnnotationResponse from annotations.ts; pdfBuffer is
modelled as a presence flag because the byte content is produced by the
external pdf-lib save call. -/
structure AnnotationResponse where
  success : Bool
  results : List AnnotationResult
  warnings : Option (List JSStr)
  pdfBuffer : Bool
deriving DecidableEq, Repr

/-- JavaScript truthiness of an optional boolean (undefined and false are
both falsy). -/
def jsTruthy (o : Option Bool) : Bool := o.getD false

/-- JavaScript s || d for an optional string s: undefined and the empty
string are falsy and fall back to d. -/
def jsOrString (o : Option JSStr) (d : JSStr) : JSStr :=
  match o with
  | none => d
  | some s => if s = [] then d else s

/-- JavaScript c || d for an optional color c (objects are always truthy). -/
def jsOrColor (o : Option AnnotationColor) (d : AnnotationColor) : AnnotationColor :=
  o.getD d

/-- createTextPosition from pdfAnnotator.ts: the estimated rectangle for a
match at character offset charIndex.  Math.floor(charIndex / 100) is
natural division. -/
def createTextPosition (pageNumber : Nat) (originalText : JSStr) (charIndex : Nat)
    (matchedText : JSStr) : TextPosition where
  pageNumber := pageNumber
  text := originalText
  x := 50
  y := 700 - ((charIndex / 100 : Nat) : ℤ) * 20
  width := matchedText.length * 6
  height := 12

/-- The record tracked by fuzzySearchWithNormalization; distance is a
natural number extended with infinity for the initial bestMatch. -/
structure FuzzyMatch where
  index : ℤ
  distance : ℕ∞
  matchedText : JSStr
deriving DecidableEq

/-- The body of the scan loop of fuzzySearchWithNormalization, iterated
over the list of window offsets: a window whose distance is within
maxDistance replaces the best match when strictly better, and a distance
of at most 2 returns immediately. -/
def fuzzyLoop (text pattern : JSStr) (maxDistance : ℤ) : List Nat → FuzzyMatch → FuzzyMatch
  | [], best => best
  | i :: rest, best =>
    let substring := jsSubstring text i (i + pattern.length)
    let distance := levenshteinDistance substring pattern
    if (distance : ℤ) ≤ maxDistance then
      let best' := if (distance : ℕ∞) < best.distance then ⟨i, distance, substring⟩ else best
      if distance ≤ 2 then best' else fuzzyLoop text pattern maxDistance rest best'
    else fuzzyLoop text pattern maxDistance rest best

/-- The window offsets fuzzySearchWithNormalization scans: 0 up to
min(text.length - pattern.length, min(text.length, pattern.length * 100))
inclusive; when the pattern is longer than the text the JavaScript bound
is negative and the loop body never runs. -/
def fuzzyScanOffsets (text pattern : JSStr) : List Nat :=
  let maxSearchLength := min text.length (pattern.length * 100)
  if pattern.length ≤ text.length then
    List.range (min (text.length - pattern.length) maxSearchLength + 1)
  else []

/-- fuzzySearchWithNormalization from pdfAnnotator.ts: slide a window of
the pattern length across the text over the scanned offsets, tracking the
best window within tolerance. -/
def fuzzySearchWithNormalization (text pattern : JSStr) (tolerance : ℚ) : FuzzyMatch :=
  let maxDistance := jsFloorMul pattern.length tolerance
  fuzzyLoop text pattern maxDistance (fuzzyScanOffsets text pattern) ⟨-1, ⊤, []⟩

/-- Invariant of the fuzzy scan: the best match is either still the
initial sentinel, or records a window offset in bounds together with its
matched window and a Levenshtein distance within the tolerance budget. -/
def FuzzyInv (text pattern : JSStr) (maxDistance : ℤ) (m : FuzzyMatch) : Prop :=
  (m.index = -1 ∧ m.distance = ⊤ ∧ m.matchedText = []) ∨
  (∃ i : Nat, m.index = (i : ℤ) ∧ i + pattern.length ≤ text.length ∧
    m.matchedText = jsSubstring text i (i + pattern.length) ∧
    m.distance = (levenshteinDistance m.matchedText pattern : ℕ∞) ∧
    (levenshteinDistance m.matchedText pattern : ℤ) ≤ maxDistance)

/-- The five matching strategies of findTextPosition, in attempt order. -/
inductive Strategy where
  | exact
  | part50
  | part30
  | fuzzy
  | rawFallback
deriving DecidableEq, Repr

/-- The data findTextPosition passes to createTextPosition on a hit,
together with the strategy that produced it. -/
structure TextMatch where
  pageNumber : Nat
  strategy : Strategy
  charIndex : Nat
  matchedText : JSStr
deriving DecidableEq, Repr

/-- The search text of an instruction: lowered unless caseSensitive is
truthy (findTextPosition, first statement). -/
def searchTextOf (instruction : AnnotationInstruction) : JSStr :=
  if jsTruthy instruction.caseSensitive then instruction.text
  else toLowerStr instruction.text

/-- The page text an instruction is compared against: lowered unless
caseSensitive is truthy (findTextPosition, loop head). -/
def effectivePageText (instruction : AnnotationInstruction) (page : PageText) : JSStr :=
  if jsTruthy instruction.caseSensitive then page.text
  else toLowerStr page.text

/-- The back half of the strategy chain of findTextPosition on one page
(reached when the exact and Partial50 strategies both failed): partial
match with the first 30 characters, fuzzy match when the tolerance is
positive, and finally the non-normalized exact fallback. -/
def searchPageTail (pageNumber : Nat)
    (pageText searchText normalizedPageText normalizedSearchText : JSStr)
    (options : RequiredAnnotationOptions) : Option TextMatch :=
  match (if 30 < normalizedSearchText.length then
           firstIndexOf normalizedPageText (normalizedSearchText.take 30)
         else none) with
  | some index => some ⟨pageNumber, .part30, index, normalizedSearchText.take 30⟩
  | none =>
    let fuzzyResult :=
      if 0 < options.matchTolerance then
        fuzzySearchWithNormalization normalizedPageText normalizedSearchText
          options.matchTolerance
      else ⟨-1, ⊤, []⟩
    if fuzzyResult.index ≠ -1 then
      some ⟨pageNumber, .fuzzy, fuzzyResult.index.toNat, fuzzyResult.matchedText⟩
    else
      match firstIndexOf pageText searchText with
      | some index => some ⟨pageNumber, .rawFallback, index, searchText⟩
      | none => none

/-- The strategy chain of findTextPosition on one page: exact match on
normalized text, partial match with the first 50 then the first 30
characters, fuzzy match when the tolerance is positive, and finally the
non-normalized exact fallback. -/
def searchPage (instruction : AnnotationInstruction) (options : RequiredAnnotationOptions)
    (page : PageText) : Option TextMatch :=
  let searchText := searchTextOf instruction
  let normalizedSearchText := normalizeText searchText
  let pageText := effectivePageText instruction page
  let normalizedPageText := normalizeText pageText
  match firstIndexOf normalizedPageText normalizedSearchText with
  | some index => some ⟨page.pageNumber, .exact, index, normalizedSearchText⟩
  | none =>
    match (if 50 < normalizedSearchText.length then
             firstIndexOf normalizedPageText (normalizedSearchText.take 50)
           else none) with
    | some index => some ⟨page.pageNumber, .part50, index, normalizedSearchText.take 50⟩
    | none =>
      searchPageTail page.pageNumber pageText searchText normalizedPageText
        normalizedSearchText options

/-- The page loop of findTextPosition: return on the first page with a
hit; when every strategy fails on a page and firstMatchOnly is set, the
loop breaks (so later pages are never examined) and the function returns
null. -/
def searchPages (instruction : AnnotationInstruction) (options : RequiredAnnotationOptions) :
    List PageText → Option TextMatch
  | [] => none
  | page :: rest =>
    match searchPage instruction options page with
    | some m => some m
    | none => if options.firstMatchOnly then none else searchPages instruction options rest

/-- The page set findTextPosition iterates over: all pages, or the pages
whose number equals the (truthy) requested page number. -/
def pagesToSearch (extractedText : ExtractedText) (instruction : AnnotationInstruction) :
    List PageText :=
  match instruction.pageNumber with
  | some n => if n = 0 then extractedText.pages
              else extractedText.pages.filter (fun p => p.pageNumber = n)
  | none => extractedText.pages

/-- findTextPosition up to the call of createTextPosition: which page,
offset, matched substring and strategy the search produces. -/
def findTextMatch (extractedText : ExtractedText) (instruction : AnnotationInstruction)
    (options : RequiredAnnotationOptions) : Option TextMatch :=
  searchPages instruction options (pagesToSearch extractedText instruction)

/-- findTextPosition from pdfAnnotator.ts: the located match converted to
an estimated TextPosition. -/
def findTextPosition (extractedText : ExtractedText) (instruction : AnnotationInstruction)
    (options : RequiredAnnotationOptions) : Option TextPosition :=
  (findTextMatch extractedText instruction options).map
    (fun m => createTextPosition m.pageNumber instruction.text m.charIndex m.matchedText)

/-- The data handed to the pdf-lib drawing helpers (drawHighlight,
drawUnderline, drawComment); rendering itself is an external effect. -/
inductive DrawOp where
  | highlight (position : TextPosition) (color : AnnotationColor)
  | underline (position : TextPosition) (color : AnnotationColor)
  | comment (position : TextPosition) (body : JSStr) (color : AnnotationColor)
deriving DecidableEq

/-- applyAnnotation from pdfAnnotator.ts: locate the text, then dispatch
on the annotation type; a missing position yields the not-found failure
result.  The comment body handed to drawComment is
instruction.comment || "Comment". -/
def applyAnnotation (extractedText : ExtractedText) (instruction : AnnotationInstruction)
    (options : RequiredAnnotationOptions) : AnnotationResult × List DrawOp :=
  match findTextPosition extractedText instruction options with
  | none =>
    ({ instruction := instruction, success := false, matchedText := none, position := none,
       error := some ("Text not found in document".toList) }, [])
  | some textPosition =>
    let color := jsOrColor instruction.color (DEFAULT_COLORS instruction.type)
    let ops :=
      match instruction.type with
      | .highlight => [DrawOp.highlight textPosition color]
      | .underline => [DrawOp.underline textPosition color]
      | .comment =>
        [DrawOp.comment textPosition (jsOrString instruction.comment ("Comment".toList)) color]
    ({ instruction := instruction, success := true, matchedText := some textPosition.text,
       position := some textPosition, error := none }, ops)

/-- The string value of the AnnotationType enum. -/
def typeName : AnnotationType → JSStr
  | .highlight => "highlight".toList
  | .underline => "underline".toList
  | .comment => "comment".toList

/-- The warning message annotatePDF builds for a failed instruction. -/
def failureMessage (instruction : AnnotationInstruction) (err : JSStr) : JSStr :=
  "Failed to apply ".toList ++ typeName instruction.type
    ++ " annotation for text \"".toList ++ instruction.text ++ "\": ".toList ++ err

/-- annotatePDF from pdfAnnotator.ts, after the PDF has been loaded and
its text extracted (both external steps): merge the options, apply every
instruction in order collecting one result each, collect warnings for
failures when logNotFound is set and skipNotFound is not, and report
success when at least one instruction succeeded. -/
def annotatePDF (extractedText : ExtractedText) (request : AnnotationRequest) :
    AnnotationResponse :=
  let options := mergeOptions request.options
  let results := request.instructions.map
    (fun instruction => ( applyAnnotation extractedText instruction options).1)
  let warnings :=
    if options.logNotFound && !options.skipNotFound then
      (results.filter (fun r => !r.success)).map
        (fun r => failureMessage r.instruction (r.error.getD []))
    else []
  { success := 0 < (results.filter (fun r => r.success)).length
    results := results
    warnings := if 0 < warnings.length then some warnings else none
    pdfBuffer := true }

/-- Reference definition of the unit-cost Levenshtein distance by the
standard recurrence on the final characters of the two strings, used to
certify that the dynamic program in levenshteinDistance computes it. -/
def levRecBack : JSStr → JSStr → Nat
  | [], ys => ys.length
  | x :: xs, [] => (x :: xs).length
  | x :: xs, y :: ys =>
    if (x :: xs).getLast (List.cons_ne_nil x xs) = (y :: ys).getLast (List.cons_ne_nil y ys) then
      levRecBack (x :: xs).dropLast (y :: ys).dropLast
    else
      1 + min (levRecBack (x :: xs).dropLast (y :: ys).dropLast)
          (min (levRecBack (x :: xs) (y :: ys).dropLast)
            (levRecBack (x :: xs).dropLast (y :: ys)))
termination_by xs ys => xs.length + ys.length
decreasing_by
  all_goals simp [List.length_dropLast]
  all_goals omega

/-- The tail of a row of the Levenshtein matrix: distances between the
prefixes u ++ (first k of xs) of the first string, for k from 1 to the
length of xs, and the processed prefix t of the second string. -/
def levRowTail (t : JSStr) : JSStr → JSStr → List Nat
  | _, [] => []
  | u, x :: xr => levRecBack (u ++ [x]) t :: levRowTail t (u ++ [x]) xr

/-- A full row of the Levenshtein matrix for first string s1 and processed
second-string prefix t. -/
def levRowFor (s1 t : JSStr) : List Nat :=
  levRecBack [] t :: levRowTail t [] s1

/-- The pointwise character normalization of normalizeText: curly single
and double quotes to their ASCII forms, then dashes to the hyphen. -/
def charMap (c : Char) : Char := mapDash (mapDoubleQuote (mapSingleQuote c))

/-- Every whitespace character of the string is the plain ASCII space. -/
def allWsSpace (s : JSStr) : Bool := s.all (fun c => !isJsWs c || c == ' ')

/-- No two adjacent characters are both whitespace; the flag records
whether the (virtual) preceding character was whitespace. -/
def noWsRun : Bool → JSStr → Bool
  | _, [] => true
  | prevWs, c :: cs => (!(prevWs && isJsWs c)) && noWsRun (isJsWs c) cs

section Lemmas

/-- On success, indexOf returns a position where the pattern occurs, and
the occurrence lies inside the haystack. -/
theorem firstIndexOf_spec :
    ∀ (hay pat : JSStr) (i : Nat), firstIndexOf hay pat = some i →
      pat <+: hay.drop i ∧ i + pat.length ≤ hay.length := by
  intro hay
  induction hay with
  | nil =>
    intro pat i h
    rw [firstIndexOf] at h
    split at h
    · next hp =>
      cases h
      refine ⟨List.isPrefixOf_iff_prefix.mp hp, ?_⟩
      have := (List.isPrefixOf_iff_prefix.mp hp).length_le
      simpa using this
    · simp at h
  | cons c t ih =>
    intro pat i h
    rw [firstIndexOf] at h
    split at h
    · next hp =>
      cases h
      refine ⟨List.isPrefixOf_iff_prefix.mp hp, ?_⟩
      have := (List.isPrefixOf_iff_prefix.mp hp).length_le
      simpa using this
    · next hp =>
      rw [Option.map_eq_some'] at h
      obtain ⟨j, hj, rfl⟩ := h
      obtain ⟨h1, h2⟩ := ih pat j hj
      refine ⟨by simpa using h1, ?_⟩
      simp only [List.length_cons]
      omega

/-- On failure, indexOf certifies that the pattern occurs nowhere in the
haystack. -/
theorem firstIndexOf_none :
    ∀ (hay pat : JSStr), firstIndexOf hay pat = none → ¬ pat <:+: hay := by
  intro hay
  induction hay with
  | nil =>
    intro pat h hinf
    rw [firstIndexOf] at h
    split at h
    · simp at h
    · next hp =>
      obtain rfl : pat = [] := List.eq_nil_of_infix_nil hinf
      simp [List.isPrefixOf] at hp
  | cons c t ih =>
    intro pat h hinf
    rw [firstIndexOf] at h
    split at h
    · simp at h
    · next hp =>
      rw [Option.map_eq_none'] at h
      rcases List.infix_cons_iff.mp hinf with h1 | h1
      · exact hp (List.isPrefixOf_iff_prefix.mpr h1)
      · exact ih pat h h1

/-- The fuzzy scan loop preserves the best-match invariant. -/
theorem fuzzyLoop_inv (text pattern : JSStr) (maxDistance : ℤ) :
    ∀ (offsets : List Nat) (best : FuzzyMatch),
      (∀ i ∈ offsets, i + pattern.length ≤ text.length) →
      FuzzyInv text pattern maxDistance best →
      FuzzyInv text pattern maxDistance (fuzzyLoop text pattern maxDistance offsets best) := by
  intro offsets
  induction offsets with
  | nil =>
    intro best _ hb
    simpa [fuzzyLoop] using hb
  | cons i rest ih =>
    intro best hmem hb
    rw [fuzzyLoop]
    simp only
    split
    · next hle =>
      have hnew :
          FuzzyInv text pattern maxDistance
            (if ((levenshteinDistance (jsSubstring text i (i + pattern.length)) pattern : ℕ∞) <
                  best.distance) then
              ⟨(i : ℤ), levenshteinDistance (jsSubstring text i (i + pattern.length)) pattern,
                jsSubstring text i (i + pattern.length)⟩
            else best) := by
        split
        · right
          exact ⟨i, rfl, hmem i (by simp), rfl, rfl, hle⟩
        · exact hb
      split
      · exact hnew
      · exact ih _ (fun j hj => hmem j (List.mem_cons_of_mem i hj)) hnew
    · exact ih _ (fun j hj => hmem j (List.mem_cons_of_mem i hj)) hb

/-- Every scanned offset leaves room for a full window. -/
theorem fuzzyScanOffsets_bound (text pattern : JSStr) :
    ∀ i ∈ fuzzyScanOffsets text pattern, i + pattern.length ≤ text.length := by
  intro i hi
  rw [fuzzyScanOffsets] at hi
  split at hi
  · next hle =>
    rw [List.mem_range] at hi
    omega
  · simp at hi

/-- The result of the fuzzy search satisfies the best-match invariant. -/
theorem fuzzySearch_inv (text pattern : JSStr) (tolerance : ℚ) :
    FuzzyInv text pattern (jsFloorMul pattern.length tolerance)
      (fuzzySearchWithNormalization text pattern tolerance) := by
  rw [fuzzySearchWithNormalization]
  exact fuzzyLoop_inv text pattern _ _ _ (fuzzyScanOffsets_bound text pattern)
    (Or.inl ⟨rfl, rfl, rfl⟩)

/-- When no scanned window is within tolerance, the loop returns its
argument unchanged. -/
theorem fuzzyLoop_none (text pattern : JSStr) (maxDistance : ℤ) :
    ∀ (offsets : List Nat) (best : FuzzyMatch),
      (∀ i ∈ offsets,
        maxDistance <
          (levenshteinDistance (jsSubstring text i (i + pattern.length)) pattern : ℤ)) →
      fuzzyLoop text pattern maxDistance offsets best = best := by
  intro offsets
  induction offsets with
  | nil => intro best _; rw [fuzzyLoop]
  | cons i rest ih =>
    intro best hmem
    rw [fuzzyLoop]
    simp only
    split
    · next hle =>
      exact absurd hle (not_le.mpr (hmem i (by simp)))
    · exact ih best (fun j hj => hmem j (List.mem_cons_of_mem i hj))

/-- The integer form of Math.floor(n * q) agrees with the mathematical
floor. -/
theorem jsFloorMul_eq_floor (n : Nat) (q : ℚ) : jsFloorMul n q = ⌊(n : ℚ) * q⌋ := by
  have h : (n : ℚ) * q = (((n : ℤ) * q.num : ℤ) : ℚ) / ((q.den : ℕ) : ℚ) := by
    conv_lhs => rw [← Rat.num_div_den q]
    push_cast
    ring
  rw [jsFloorMul, h, Rat.floor_intCast_div_natCast]

/-- indexOf of the empty pattern is 0, as in JavaScript. -/
theorem firstIndexOf_nil (hay : JSStr) : firstIndexOf hay [] = some 0 := by
  cases hay <;> rfl

/-- A hit of the page loop comes from some page of the searched list. -/
theorem searchPages_some :
    ∀ (l : List PageText) (instruction : AnnotationInstruction)
      (options : RequiredAnnotationOptions) (m : TextMatch),
      searchPages instruction options l = some m →
      ∃ p ∈ l, searchPage instruction options p = some m := by
  intro l
  induction l with
  | nil =>
    intro inst opts m h
    rw [searchPages] at h
    cases h
  | cons p rest ih =>
    intro inst opts m h
    rw [searchPages] at h
    cases hp : searchPage inst opts p with
    | some m' =>
      simp only [hp] at h
      exact ⟨p, by simp, by rw [hp, h]⟩
    | none =>
      simp only [hp] at h
      split at h
      · cases h
      · obtain ⟨q, hq, hq2⟩ := ih inst opts m h
        exact ⟨q, List.mem_cons_of_mem p hq, hq2⟩

/-- The searched page set is drawn from the extracted pages. -/
theorem pagesToSearch_subset (doc : ExtractedText) (instruction : AnnotationInstruction) :
    ∀ p ∈ pagesToSearch doc instruction, p ∈ doc.pages := by
  intro p hp
  unfold pagesToSearch at hp
  split at hp
  · split at hp
    · exact hp
    · exact List.mem_of_mem_filter hp
  · exact hp

/-- The three character replacements compose to charMap. -/
theorem normalizeText_eq_charMap (s : JSStr) :
    normalizeText s = trimWs ((collapseWs s).map charMap) := by
  rw [normalizeText, List.map_map, List.map_map]
  rfl

/-- charMap does not touch characters other than the six punctuation
variants. -/
theorem charMap_eq_self (c : Char) (h1 : c ≠ '‘') (h2 : c ≠ '’') (h3 : c ≠ '“')
    (h4 : c ≠ '”') (h5 : c ≠ '–') (h6 : c ≠ '—') : charMap c = c := by
  simp [charMap, mapSingleQuote, mapDoubleQuote, mapDash, h1, h2, h3, h4, h5, h6]

/-- charMap preserves whitespace status. -/
theorem charMap_ws (c : Char) : isJsWs (charMap c) = isJsWs c := by
  by_cases h1 : c = '‘'
  · subst h1; rfl
  by_cases h2 : c = '’'
  · subst h2; rfl
  by_cases h3 : c = '“'
  · subst h3; rfl
  by_cases h4 : c = '”'
  · subst h4; rfl
  by_cases h5 : c = '–'
  · subst h5; rfl
  by_cases h6 : c = '—'
  · subst h6; rfl
  rw [charMap_eq_self c h1 h2 h3 h4 h5 h6]

/-- charMap is idempotent. -/
theorem charMap_idem (c : Char) : charMap (charMap c) = charMap c := by
  by_cases h1 : c = '‘'
  · subst h1; rfl
  by_cases h2 : c = '’'
  · subst h2; rfl
  by_cases h3 : c = '“'
  · subst h3; rfl
  by_cases h4 : c = '”'
  · subst h4; rfl
  by_cases h5 : c = '–'
  · subst h5; rfl
  by_cases h6 : c = '—'
  · subst h6; rfl
  rw [charMap_eq_self c h1 h2 h3 h4 h5 h6, charMap_eq_self c h1 h2 h3 h4 h5 h6]

/-- The whitespace collapse scanner commutes with the pointwise character
normalization. -/
theorem collapseWsAux_map (l : JSStr) :
    ∀ b, collapseWsAux b (l.map charMap) = (collapseWsAux b l).map charMap := by
  induction l with
  | nil => intro b; cases b <;> rfl
  | cons c cs ih =>
    intro b
    cases b
    · rw [List.map_cons, collapseWsAux, collapseWsAux, charMap_ws]
      by_cases hc : isJsWs c
      · rw [if_pos hc, if_pos hc, ih true]
        rfl
      · rw [if_neg hc, if_neg hc, List.map_cons, ih false]
    · rw [List.map_cons, collapseWsAux, collapseWsAux, charMap_ws]
      by_cases hc : isJsWs c
      · rw [if_pos hc, if_pos hc, ih true]
      · rw [if_neg hc, if_neg hc, List.map_cons, ih false]

/-- The result of the scanner with flag true starts with a non-whitespace
character. -/
theorem collapseWsAux_true_head :
    ∀ (l : JSStr) (d : Char), (collapseWsAux true l).head? = some d → isJsWs d = false := by
  intro l
  induction l with
  | nil => intro d h; cases h
  | cons c cs ih =>
    intro d h
    rw [collapseWsAux] at h
    by_cases hc : isJsWs c
    · rw [if_pos hc] at h
      exact ih d h
    · rw [if_neg hc] at h
      cases h
      simpa using hc

/-- Dropping the leading whitespace of a flag-false collapse yields the
flag-true collapse. -/
theorem trimLeft_collapseWsAux (l : JSStr) :
    trimLeft (collapseWsAux false l) = collapseWsAux true l := by
  induction l with
  | nil => rfl
  | cons c cs ih =>
    rw [collapseWsAux, collapseWsAux]
    by_cases hc : isJsWs c
    · rw [if_pos hc, if_pos hc]
      rw [trimLeft, List.dropWhile_cons]
      simp only [if_pos (show isJsWs ' ' = true from rfl)]
      cases hcs : collapseWsAux true cs with
      | nil => rfl
      | cons d rest =>
        have hd := collapseWsAux_true_head cs d (by rw [hcs]; rfl)
        rw [List.dropWhile_cons, hd]
        rfl
    · rw [if_neg hc, if_neg hc, trimLeft, List.dropWhile_cons, if_neg hc]

/-- The flag-true collapse is a suffix of the flag-false collapse. -/
theorem collapseWsAux_true_suffix (l : JSStr) :
    collapseWsAux true l <:+ collapseWsAux false l := by
  cases l with
  | nil => exact List.suffix_rfl
  | cons c cs =>
    rw [collapseWsAux, collapseWsAux]
    by_cases hc : isJsWs c
    · rw [if_pos hc, if_pos hc]
      exact (List.suffix_cons ' ' _)
    · rw [if_neg hc, if_neg hc]

/-- Every whitespace character in a collapsed string is the plain space. -/
theorem collapseWsAux_allWs (l : JSStr) : ∀ b, allWsSpace (collapseWsAux b l) = true := by
  induction l with
  | nil => intro b; cases b <;> rfl
  | cons c cs ih =>
    intro b
    cases b
    · rw [collapseWsAux]
      by_cases hc : isJsWs c
      · rw [if_pos hc]
        simp only [allWsSpace, List.all_cons, Bool.and_eq_true]
        exact ⟨by simp, ih true⟩
      · rw [if_neg hc]
        simp only [allWsSpace, List.all_cons, Bool.and_eq_true]
        exact ⟨by simp [hc], ih false⟩
    · rw [collapseWsAux]
      by_cases hc : isJsWs c
      · rw [if_pos hc]
        exact ih true
      · rw [if_neg hc]
        simp only [allWsSpace, List.all_cons, Bool.and_eq_true]
        exact ⟨by simp [hc], ih false⟩

/-- A collapsed string contains no two adjacent whitespace characters. -/
theorem collapseWsAux_noWsRun (l : JSStr) : ∀ b, noWsRun b (collapseWsAux b l) = true := by
  induction l with
  | nil => intro b; cases b <;> rfl
  | cons c cs ih =>
    intro b
    cases b
    · rw [collapseWsAux]
      by_cases hc : isJsWs c
      · rw [if_pos hc]
        simp only [noWsRun]
        simpa using ih true
      · rw [if_neg hc]
        simp only [noWsRun, hc]
        simpa using ih false
    · rw [collapseWsAux]
      by_cases hc : isJsWs c
      · rw [if_pos hc]
        exact ih true
      · rw [if_neg hc]
        simp only [noWsRun, hc]
        simpa using ih false

/-- The collapse scanner fixes strings that are already canonical:
whitespace only as single spaces, no adjacent whitespace. -/
theorem collapseWsAux_id (l : JSStr) :
    ∀ b, allWsSpace l = true → noWsRun b l = true → collapseWsAux b l = l := by
  induction l with
  | nil => intro b _ _; cases b <;> rfl
  | cons c cs ih =>
    intro b hall hrun
    rw [allWsSpace, List.all_cons, Bool.and_eq_true] at hall
    simp only [noWsRun, Bool.and_eq_true] at hrun
    have hcs : noWsRun (isJsWs c) cs = true := hrun.2
    cases b
    · rw [collapseWsAux]
      by_cases hc : isJsWs c
      · rw [if_pos hc]
        have hcspace : c = ' ' := by
          have h1 := hall.1
          rw [hc] at h1
          simpa using h1
        rw [hcspace]
        congr 1
        rw [hc] at hcs
        exact ih true (by rw [allWsSpace]; exact hall.2) hcs
      · rw [if_neg hc]
        congr 1
        have h1 : isJsWs c = false := by simpa using hc
        rw [h1] at hcs
        exact ih false (by rw [allWsSpace]; exact hall.2) hcs
    · rw [collapseWsAux]
      by_cases hc : isJsWs c
      · exfalso
        rw [hc] at hrun
        simpa using hrun.1
      · rw [if_neg hc]
        congr 1
        have h1 : isJsWs c = false := by simpa using hc
        rw [h1] at hcs
        exact ih false (by rw [allWsSpace]; exact hall.2) hcs

/-- The head of a whitespace-dropped list is not whitespace. -/
theorem dropWhile_ws_head :
    ∀ (l : JSStr) (d : Char), (l.dropWhile isJsWs).head? = some d → isJsWs d = false := by
  intro l
  induction l with
  | nil => intro d h; cases h
  | cons c cs ih =>
    intro d h
    rw [List.dropWhile_cons] at h
    by_cases hc : isJsWs c
    · rw [if_pos hc] at h
      exact ih d h
    · rw [if_neg hc] at h
      cases h
      simpa using hc

/-- dropWhile does nothing when the head already fails the test. -/
theorem dropWhile_ws_of_head (l : JSStr) (h : ∀ d, l.head? = some d → isJsWs d = false) :
    l.dropWhile isJsWs = l := by
  cases l with
  | nil => rfl
  | cons c cs =>
    rw [List.dropWhile_cons, if_neg]
    simp [h c rfl]

/-- A string is its right trim followed by the dropped whitespace tail. -/
theorem trimRight_append_eq (l : JSStr) :
    l = trimRight l ++ (l.reverse.takeWhile isJsWs).reverse := by
  rw [trimRight, ← List.reverse_append, List.takeWhile_append_dropWhile, List.reverse_reverse]

/-- The right trim is a prefix of the string. -/
theorem trimRight_pre (l : JSStr) : trimRight l <+: l :=
  ⟨(l.reverse.takeWhile isJsWs).reverse, (trimRight_append_eq l).symm⟩

/-- How the right trim extends across a cons cell. -/
theorem trimRight_cons (c : Char) (l : JSStr) :
    trimRight (c :: l) =
      if trimRight l = [] then (if isJsWs c then [] else [c]) else c :: trimRight l := by
  rw [trimRight, List.reverse_cons, List.dropWhile_append]
  by_cases he : (List.dropWhile isJsWs l.reverse).isEmpty
  · rw [if_pos he]
    rw [List.isEmpty_iff] at he
    have h2 : trimRight l = [] := by
      rw [trimRight, he]
      rfl
    rw [if_pos h2]
    by_cases hc : isJsWs c
    · rw [List.dropWhile_cons, if_pos hc]
      simp [hc]
    · rw [List.dropWhile_cons, if_neg hc]
      simp [hc]
  · rw [if_neg he]
    have h2 : ¬ trimRight l = [] := by
      intro hh
      rw [trimRight] at hh
      rw [List.reverse_eq_nil_iff] at hh
      rw [hh] at he
      exact he rfl
    rw [if_neg h2, List.reverse_append, trimRight]
    rfl

/-- The last character of a right-trimmed string is not whitespace. -/
theorem trimRight_last (l : JSStr) (d : Char) (h : (trimRight l).getLast? = some d) :
    isJsWs d = false := by
  rw [trimRight, List.getLast?_reverse] at h
  exact dropWhile_ws_head _ d h

/-- Weakening the leading-whitespace flag preserves run freedom. -/
theorem noWsRun_false_of_true (l : JSStr) (h : noWsRun true l = true) :
    noWsRun false l = true := by
  cases l with
  | nil => rfl
  | cons c cs =>
    simp only [noWsRun, Bool.and_eq_true] at h ⊢
    exact ⟨by simp, h.2⟩

/-- Run freedom restricts to suffixes. -/
theorem noWsRun_append_right :
    ∀ (u s : JSStr) (b : Bool), noWsRun b (u ++ s) = true → noWsRun false s = true := by
  intro u
  induction u with
  | nil =>
    intro s b h
    cases b
    · exact h
    · exact noWsRun_false_of_true s h
  | cons c u' ih =>
    intro s b h
    rw [List.cons_append] at h
    simp only [noWsRun, Bool.and_eq_true] at h
    exact ih s (isJsWs c) h.2

/-- Run freedom restricts to prefixes. -/
theorem noWsRun_append_left :
    ∀ (u v : JSStr) (b : Bool), noWsRun b (u ++ v) = true → noWsRun b u = true := by
  intro u
  induction u with
  | nil => intro v b _; rfl
  | cons c u' ih =>
    intro v b h
    rw [List.cons_append] at h
    simp only [noWsRun, Bool.and_eq_true] at h ⊢
    exact ⟨h.1, ih v (isJsWs c) h.2⟩

/-- Space canonicity restricts along subsets. -/
theorem allWsSpace_sub (l l' : JSStr) (hsub : ∀ c ∈ l', c ∈ l) (h : allWsSpace l = true) :
    allWsSpace l' = true := by
  rw [allWsSpace, List.all_eq_true] at h ⊢
  exact fun c hc => h c (hsub c hc)

/-- charMap keeps space canonicity. -/
theorem allWsSpace_map (l : JSStr) (h : allWsSpace l = true) :
    allWsSpace (l.map charMap) = true := by
  rw [allWsSpace, List.all_eq_true] at h ⊢
  intro c hc
  rw [List.mem_map] at hc
  obtain ⟨a, ha, rfl⟩ := hc
  have h1 := h a ha
  simp only [Bool.or_eq_true, Bool.not_eq_true'] at h1 ⊢
  rcases h1 with h1 | h1
  · left
    rw [charMap_ws]
    exact h1
  · right
    have : a = ' ' := by simpa using h1
    rw [this]
    rfl

/-- charMap keeps whitespace-run freedom. -/
theorem noWsRun_map (l : JSStr) : ∀ b, noWsRun b (l.map charMap) = noWsRun b l := by
  induction l with
  | nil => intro b; rfl
  | cons c cs ih =>
    intro b
    rw [List.map_cons]
    simp only [noWsRun, charMap_ws, ih]

/-- charMap applied twice is charMap applied once. -/
theorem map_charMap_idem (l : JSStr) : (l.map charMap).map charMap = l.map charMap := by
  induction l with
  | nil => rfl
  | cons c cs ih => rw [List.map_cons, List.map_cons, charMap_idem, ih]

/-- The left trim commutes with charMap. -/
theorem trimLeft_map (l : JSStr) : trimLeft (l.map charMap) = (trimLeft l).map charMap := by
  rw [trimLeft, trimLeft, List.dropWhile_map]
  have h : (isJsWs ∘ charMap) = isJsWs := funext charMap_ws
  rw [h]

/-- The right trim commutes with charMap. -/
theorem trimRight_map (l : JSStr) : trimRight (l.map charMap) = (trimRight l).map charMap := by
  rw [trimRight, trimRight, ← List.map_reverse, List.dropWhile_map]
  have h : (isJsWs ∘ charMap) = isJsWs := funext charMap_ws
  rw [h, List.map_reverse]

/-- The two-sided trim commutes with charMap. -/
theorem trimWs_map (l : JSStr) : trimWs (l.map charMap) = (trimWs l).map charMap := by
  rw [trimWs, trimWs, trimRight_map, trimLeft_map]

/-- The head of a trimmed string is not whitespace. -/
theorem trimWs_head (l : JSStr) (d : Char) (h : (trimWs l).head? = some d) :
    isJsWs d = false := by
  rw [trimWs, trimLeft] at h
  exact dropWhile_ws_head _ d h

/-- Elements of a nonempty suffix end where the whole list ends. -/
theorem getLast?_of_suffix (s t : JSStr) (h : s <:+ t) (hne : s ≠ []) :
    s.getLast? = t.getLast? := by
  obtain ⟨u, rfl⟩ := h
  exact (List.getLast?_append_of_ne_nil u hne).symm

/-- The last character of a trimmed string is not whitespace. -/
theorem trimWs_last (l : JSStr) (d : Char) (h : (trimWs l).getLast? = some d) :
    isJsWs d = false := by
  have hne : trimWs l ≠ [] := by
    intro hh
    rw [hh] at h
    cases h
  have hsuf : trimWs l <:+ trimRight l := List.dropWhile_suffix isJsWs
  rw [getLast?_of_suffix _ _ hsuf hne] at h
  exact trimRight_last l d h

/-- Trimming is idempotent. -/
theorem trimWs_idem (l : JSStr) : trimWs (trimWs l) = trimWs l := by
  have h1 : trimRight (trimWs l) = trimWs l := by
    rw [trimRight, dropWhile_ws_of_head]
    · exact List.reverse_reverse _
    · intro d hd
      rw [List.head?_reverse] at hd
      exact trimWs_last l d hd
  rw [trimWs, h1, trimLeft, dropWhile_ws_of_head]
  intro d hd
  exact trimWs_head l d hd

/-- Trimming preserves space canonicity. -/
theorem allWsSpace_trimWs (l : JSStr) (h : allWsSpace l = true) :
    allWsSpace (trimWs l) = true := by
  refine allWsSpace_sub l (trimWs l) ?_ h
  intro c hc
  have h1 : c ∈ trimRight l := (List.dropWhile_suffix isJsWs).subset hc
  exact (trimRight_pre l).subset h1

/-- Trimming preserves whitespace-run freedom. -/
theorem noWsRun_trimWs (l : JSStr) (b : Bool) (h : noWsRun b l = true) :
    noWsRun false (trimWs l) = true := by
  have h1 : noWsRun b (trimRight l) = true := by
    have := trimRight_append_eq l
    rw [this] at h
    exact noWsRun_append_left _ _ b h
  have h2 : trimRight l = (trimRight l).takeWhile isJsWs ++ trimWs l := by
    rw [trimWs, trimLeft, List.takeWhile_append_dropWhile]
  rw [h2] at h1
  exact noWsRun_append_right _ _ b h1

/-- normalizeText is idempotent. -/
theorem normalizeText_idem (s : JSStr) : normalizeText (normalizeText s) = normalizeText s := by
  rw [normalizeText_eq_charMap s, normalizeText_eq_charMap]
  have hallY : allWsSpace ((collapseWs s).map charMap) = true :=
    allWsSpace_map _ (collapseWsAux_allWs s false)
  have hrunY : noWsRun false ((collapseWs s).map charMap) = true := by
    rw [noWsRun_map]
    exact collapseWsAux_noWsRun s false
  have hallZ : allWsSpace (trimWs ((collapseWs s).map charMap)) = true :=
    allWsSpace_trimWs _ hallY
  have hrunZ : noWsRun false (trimWs ((collapseWs s).map charMap)) = true :=
    noWsRun_trimWs _ false hrunY
  rw [show collapseWs (trimWs ((collapseWs s).map charMap))
      = trimWs ((collapseWs s).map charMap) from collapseWsAux_id _ false hallZ hrunZ]
  rw [show (trimWs ((collapseWs s).map charMap)).map charMap
      = trimWs ((collapseWs s).map charMap) from by rw [← trimWs_map, map_charMap_idem]]
  exact trimWs_idem _

/-- Prefixes survive left-trimming or trim to nothing. -/
theorem trimLeft_pre_mono (x y : JSStr) (h : x <+: y) :
    trimLeft x <+: trimLeft y ∨ trimLeft x = [] := by
  obtain ⟨r, rfl⟩ := h
  rw [trimLeft, trimLeft, List.dropWhile_append]
  by_cases he : (x.dropWhile isJsWs).isEmpty
  · right
    rwa [List.isEmpty_iff] at he
  · left
    rw [if_neg he]
    exact ⟨r, rfl⟩

/-- The right trim of a collapse is a prefix of the collapse of any
right-extension. -/
theorem trimRight_collapse_pre :
    ∀ (s : JSStr) (b : Bool) (rest : JSStr),
      trimRight (collapseWsAux b s) <+: collapseWsAux b (s ++ rest) := by
  intro s
  induction s with
  | nil =>
    intro b rest
    cases b <;> exact ⟨_, rfl⟩
  | cons c cs ih =>
    intro b rest
    cases b
    · rw [List.cons_append, collapseWsAux, collapseWsAux]
      by_cases hc : isJsWs c
      · rw [if_pos hc, if_pos hc, trimRight_cons]
        by_cases hz : trimRight (collapseWsAux true cs) = []
        · rw [if_pos hz, if_pos (show isJsWs ' ' = true from rfl)]
          exact ⟨_, rfl⟩
        · rw [if_neg hz]
          exact List.cons_prefix_cons.mpr ⟨rfl, ih true rest⟩
      · rw [if_neg hc, if_neg hc, trimRight_cons]
        by_cases hz : trimRight (collapseWsAux false cs) = []
        · rw [if_pos hz, if_neg hc]
          exact List.cons_prefix_cons.mpr ⟨rfl, ⟨_, rfl⟩⟩
        · rw [if_neg hz]
          exact List.cons_prefix_cons.mpr ⟨rfl, ih false rest⟩
    · rw [List.cons_append, collapseWsAux, collapseWsAux]
      by_cases hc : isJsWs c
      · rw [if_pos hc, if_pos hc]
        exact ih true rest
      · rw [if_neg hc, if_neg hc, trimRight_cons]
        by_cases hz : trimRight (collapseWsAux false cs) = []
        · rw [if_pos hz, if_neg hc]
          exact List.cons_prefix_cons.mpr ⟨rfl, ⟨_, rfl⟩⟩
        · rw [if_neg hz]
          exact List.cons_prefix_cons.mpr ⟨rfl, ih false rest⟩

/-- The flag-true collapse of a string is a suffix of the collapse of any
left-extension. -/
theorem collapse_true_suffix_append :
    ∀ (a : JSStr) (b : Bool) (s : JSStr),
      collapseWsAux true s <:+ collapseWsAux b (a ++ s) := by
  intro a
  induction a with
  | nil =>
    intro b s
    cases b
    · exact collapseWsAux_true_suffix s
    · exact List.suffix_rfl
  | cons c a' ih =>
    intro b s
    rw [List.cons_append]
    cases b
    · rw [collapseWsAux]
      by_cases hc : isJsWs c
      · rw [if_pos hc]
        exact (ih true s).trans (List.suffix_cons ' ' _)
      · rw [if_neg hc]
        exact (ih false s).trans (List.suffix_cons c _)
    · rw [collapseWsAux]
      by_cases hc : isJsWs c
      · rw [if_pos hc]
        exact ih true s
      · rw [if_neg hc]
        exact (ih false s).trans (List.suffix_cons c _)

/-- A contained string whose head is not whitespace survives left
trimming of the container. -/
theorem inf_trimLeft (x : JSStr) (hx : ∀ d, x.head? = some d → isJsWs d = false) :
    ∀ (u v : JSStr), x <:+: trimLeft (u ++ x ++ v) := by
  intro u
  induction u with
  | nil =>
    intro v
    cases x with
    | nil => exact ⟨[], trimLeft v, by simp⟩
    | cons d x' =>
      have hd := hx d rfl
      rw [List.nil_append, trimLeft, List.cons_append, List.dropWhile_cons, hd]
      simp only [Bool.false_eq_true, if_false]
      exact ⟨[], v, by simp⟩
  | cons c u' ih =>
    intro v
    rw [List.cons_append, List.cons_append, trimLeft, List.dropWhile_cons]
    by_cases hc : isJsWs c
    · rw [if_pos hc]
      exact ih v
    · rw [if_neg hc]
      exact List.infix_cons ⟨u', v, rfl⟩

/-- A contained string with non-whitespace endpoints survives two-sided
trimming of the container. -/
theorem inf_trimWs (x z : JSStr) (hhead : ∀ d, x.head? = some d → isJsWs d = false)
    (hlast : ∀ d, x.getLast? = some d → isJsWs d = false) (h : x <:+: z) :
    x <:+: trimWs z := by
  have h1 : x.reverse <:+: z.reverse := List.reverse_infix.mpr h
  have h2 : ∀ d, x.reverse.head? = some d → isJsWs d = false := by
    intro d hd
    rw [List.head?_reverse] at hd
    exact hlast d hd
  obtain ⟨u, v, huv⟩ := h1
  have h3 : x.reverse <:+: trimLeft (u ++ x.reverse ++ v) := inf_trimLeft x.reverse h2 u v
  rw [huv] at h3
  have h4 : x <:+: trimRight z := by
    refine List.reverse_infix.mp ?_
    rw [trimRight, List.reverse_reverse]
    exact h3
  obtain ⟨u2, v2, huv2⟩ := h4
  have h5 : x <:+: trimLeft (u2 ++ x ++ v2) := inf_trimLeft x hhead u2 v2
  rw [huv2] at h5
  rw [trimWs]
  exact h5

/-- Normalization preserves containment: if s occurs inside t, the
normalization of s occurs inside the normalization of t.  This is what
makes the raw fallback strategy of findTextPosition unreachable: a raw
hit forces a normalized hit for the exact strategy. -/
theorem normalizeText_inf_mono (s t : JSStr) (h : s <:+: t) :
    normalizeText s <:+: normalizeText t := by
  obtain ⟨u, v, rfl⟩ := h
  have h1 : trimRight (collapseWs s) <+: collapseWs (s ++ v) :=
    trimRight_collapse_pre s false v
  have h2 : trimWs (collapseWs s) <+: trimLeft (collapseWs (s ++ v)) ∨
      trimWs (collapseWs s) = [] := by
    rw [trimWs]
    exact trimLeft_pre_mono _ _ h1
  rcases h2 with h2 | h2
  · have h3 : trimLeft (collapseWs (s ++ v)) = collapseWsAux true (s ++ v) :=
      trimLeft_collapseWsAux (s ++ v)
    rw [h3] at h2
    have h4 : collapseWsAux true (s ++ v) <:+ collapseWs (u ++ s ++ v) := by
      rw [List.append_assoc]
      exact collapse_true_suffix_append u false (s ++ v)
    have h5 : trimWs (collapseWs s) <:+: collapseWs (u ++ s ++ v) :=
      h2.isInfix.trans h4.isInfix
    have h6 : (trimWs (collapseWs s)).map charMap
        <:+: (collapseWs (u ++ s ++ v)).map charMap := h5.map charMap
    rw [normalizeText_eq_charMap s, normalizeText_eq_charMap (u ++ s ++ v), trimWs_map]
    refine inf_trimWs _ _ ?_ ?_ h6
    · intro d hd
      rw [← trimWs_map] at hd
      exact trimWs_head _ d hd
    · intro d hd
      rw [← trimWs_map] at hd
      exact trimWs_last _ d hd
  · rw [normalizeText_eq_charMap s, trimWs_map, h2]
    exact ⟨[], normalizeText (u ++ s ++ v), by simp⟩

/-- The raw fallback can never fire: when the exact strategy found
nothing in the normalized texts, the raw texts cannot contain the raw
pattern either, because normalization preserves containment. -/
theorem raw_fallback_none' (pageText searchText : JSStr)
    (h1 : firstIndexOf (normalizeText pageText) (normalizeText searchText) = none) :
    firstIndexOf pageText searchText = none := by
  cases h5 : firstIndexOf pageText searchText with
  | none => rfl
  | some j =>
    exfalso
    obtain ⟨hpre, _⟩ := firstIndexOf_spec _ _ j h5
    have hinf : searchText <:+: pageText :=
      hpre.isInfix.trans (List.drop_suffix j _).isInfix
    exact firstIndexOf_none _ _ h1 (normalizeText_inf_mono _ _ hinf)

/-- Inversion for the back half of the strategy chain: a hit lies inside
the normalized page text.  The raw fallback case is refuted through the
containment-preservation of normalization. -/
theorem searchPageTail_some (pageNumber : Nat) (pageText searchText : JSStr)
    (options : RequiredAnnotationOptions) (m : TextMatch)
    (h1 : firstIndexOf (normalizeText pageText) (normalizeText searchText) = none)
    (h : searchPageTail pageNumber pageText searchText (normalizeText pageText)
      (normalizeText searchText) options = some m) :
    m.pageNumber = pageNumber ∧
    m.charIndex + m.matchedText.length ≤ (normalizeText pageText).length := by
  rw [searchPageTail] at h
  cases h2 : (if 30 < (normalizeText searchText).length then
      firstIndexOf (normalizeText pageText) ((normalizeText searchText).take 30)
    else none) with
  | some i =>
    simp only [h2] at h
    obtain rfl := Option.some.inj h
    by_cases hlen : 30 < (normalizeText searchText).length
    · rw [if_pos hlen] at h2
      obtain ⟨_, hb⟩ := firstIndexOf_spec _ _ i h2
      exact ⟨rfl, hb⟩
    · rw [if_neg hlen] at h2
      cases h2
  | none =>
    simp only [h2] at h
    have hraw := raw_fallback_none' pageText searchText h1
    by_cases h0 : 0 < options.matchTolerance
    · rw [if_pos h0] at h
      by_cases hidx : (fuzzySearchWithNormalization (normalizeText pageText)
          (normalizeText searchText) options.matchTolerance).index = -1
      · rw [if_neg (by simpa using hidx), hraw] at h
        cases h
      · rw [if_pos (by simpa using hidx)] at h
        obtain rfl := Option.some.inj h
        rcases fuzzySearch_inv (normalizeText pageText) (normalizeText searchText)
            options.matchTolerance with hf | ⟨i, hI, hb, hm, _, _⟩
        · exact absurd hf.1 hidx
        · refine ⟨rfl, ?_⟩
          simp only [hI, Int.toNat_natCast, hm, jsSubstring]
          rw [List.length_drop, List.length_take]
          omega
    · rw [if_neg h0] at h
      simp only [show ((⟨-1, ⊤, []⟩ : FuzzyMatch).index ≠ -1) = False by simp] at h
      rw [if_neg (by simp), hraw] at h
      cases h

/-- Inversion for the strategy chain on one page: a hit carries the page
number and an offset/window pair lying inside the normalized page
text. -/
theorem searchPage_some (instruction : AnnotationInstruction)
    (options : RequiredAnnotationOptions) (page : PageText) (m : TextMatch)
    (h : searchPage instruction options page = some m) :
    m.pageNumber = page.pageNumber ∧
    m.charIndex + m.matchedText.length ≤
      (normalizeText (effectivePageText instruction page)).length := by
  rw [searchPage] at h
  cases h1 : firstIndexOf (normalizeText (effectivePageText instruction page))
      (normalizeText (searchTextOf instruction)) with
  | some i =>
    simp only [h1] at h
    obtain rfl := Option.some.inj h
    obtain ⟨_, hlen⟩ := firstIndexOf_spec _ _ i h1
    exact ⟨rfl, hlen⟩
  | none =>
    simp only [h1] at h
    cases h2 : (if 50 < (normalizeText (searchTextOf instruction)).length then
        firstIndexOf (normalizeText (effectivePageText instruction page))
          ((normalizeText (searchTextOf instruction)).take 50)
      else none) with
    | some i =>
      simp only [h2] at h
      obtain rfl := Option.some.inj h
      by_cases hlen : 50 < (normalizeText (searchTextOf instruction)).length
      · rw [if_pos hlen] at h2
        obtain ⟨_, hb⟩ := firstIndexOf_spec _ _ i h2
        exact ⟨rfl, hb⟩
      · rw [if_neg hlen] at h2
        cases h2
    | none =>
      simp only [h2] at h
      exact searchPageTail_some page.pageNumber (effectivePageText instruction page)
        (searchTextOf instruction) options m h1 h

/-- Base equation of the reference distance: an empty first string. -/
theorem levRecBack_nil_left (ys : JSStr) : levRecBack [] ys = ys.length := by
  rw [levRecBack.eq_def]

/-- Base equation of the reference distance: an empty second string. -/
theorem levRecBack_nil_right (xs : JSStr) : levRecBack xs [] = xs.length := by
  cases xs with
  | nil => rw [levRecBack.eq_def]
  | cons x xr => rw [levRecBack.eq_def]

/-- The textbook recurrence on final characters, stated for explicit
concatenations. -/
theorem levRecBack_concat_concat (u v : JSStr) (x y : Char) :
    levRecBack (u ++ [x]) (v ++ [y]) =
      if x = y then levRecBack u v
      else 1 + min (levRecBack u v)
        (min (levRecBack (u ++ [x]) v) (levRecBack u (v ++ [y]))) := by
  obtain ⟨a, as, ha⟩ : ∃ a as, u ++ [x] = a :: as := by
    cases u with
    | nil => exact ⟨x, [], rfl⟩
    | cons c cs => exact ⟨c, cs ++ [x], rfl⟩
  obtain ⟨b, bs, hb⟩ : ∃ b bs, v ++ [y] = b :: bs := by
    cases v with
    | nil => exact ⟨y, [], rfl⟩
    | cons c cs => exact ⟨c, cs ++ [y], rfl⟩
  have hga : (a :: as).getLast (List.cons_ne_nil a as) = x := by
    have h1 : (a :: as).getLast? = some x := by
      rw [← ha, List.getLast?_concat]
    rw [List.getLast?_eq_getLast (a :: as) (List.cons_ne_nil a as)] at h1
    exact Option.some.inj h1
  have hgb : (b :: bs).getLast (List.cons_ne_nil b bs) = y := by
    have h1 : (b :: bs).getLast? = some y := by
      rw [← hb, List.getLast?_concat]
    rw [List.getLast?_eq_getLast (b :: bs) (List.cons_ne_nil b bs)] at h1
    exact Option.some.inj h1
  have hda : (a :: as).dropLast = u := by
    rw [← ha, List.dropLast_concat]
  have hdb : (b :: bs).dropLast = v := by
    rw [← hb, List.dropLast_concat]
  conv_lhs => rw [ha, hb, levRecBack.eq_def]
  simp only
  rw [hga, hgb, hda, hdb, ← ha, ← hb]

/-- The inner chain of the dynamic-program row step turns the row for t
into the row for t extended by c. -/
theorem levStepAux_row (c : Char) (t : JSStr) :
    ∀ (xs u : JSStr),
      levStepAux c xs (levRecBack u t) (levRowTail t u xs) (levRecBack u (t ++ [c]))
        = levRowTail (t ++ [c]) u xs := by
  intro xs
  induction xs with
  | nil => intro u; rfl
  | cons x xr ih =>
    intro u
    rw [levRowTail, levRowTail]
    simp only [levStepAux]
    have hv : (if c = x then levRecBack u t
        else 1 + min (levRecBack u t)
          (min (levRecBack u (t ++ [c])) (levRecBack (u ++ [x]) t)))
        = levRecBack (u ++ [x]) (t ++ [c]) := by
      rw [levRecBack_concat_concat]
      by_cases h : c = x
      · rw [if_pos h, if_pos h.symm]
      · rw [if_neg h, if_neg (fun hh => h hh.symm)]
        omega
    rw [hv, ih (u ++ [x])]

/-- One row step of the dynamic program advances the processed prefix of
the second string by one character. -/
theorem levStep_row (s1 t : JSStr) (c : Char) :
    levStep s1 c (levRowFor s1 t) = levRowFor s1 (t ++ [c]) := by
  rw [levRowFor, levRowFor]
  simp only [levStep]
  have h0 : levRecBack [] t + 1 = levRecBack [] (t ++ [c]) := by
    rw [levRecBack_nil_left, levRecBack_nil_left, List.length_append]
    rfl
  rw [h0, levStepAux_row c t s1 []]

/-- Folding the row step over the second string computes the row of the
full processed prefix. -/
theorem levFold_row (s1 : JSStr) :
    ∀ (rest t : JSStr),
      List.foldl (fun row c => levStep s1 c row) (levRowFor s1 t) rest
        = levRowFor s1 (t ++ rest) := by
  intro rest
  induction rest with
  | nil => intro t; simp
  | cons c cr ih =>
    intro t
    rw [List.foldl_cons, levStep_row, ih, List.append_assoc]
    rfl

/-- Against an empty second string the row tail is a run of consecutive
lengths. -/
theorem levRowTail_nil :
    ∀ (xs u : JSStr), levRowTail [] u xs = List.range' (u.length + 1) xs.length := by
  intro xs
  induction xs with
  | nil => intro u; rfl
  | cons x xr ih =>
    intro u
    rw [levRowTail, ih (u ++ [x]), levRecBack_nil_right, List.length_append]
    simp [List.range'_succ, Nat.add_assoc]

/-- The initial dynamic-program row equals the row of the empty processed
prefix. -/
theorem levRowFor_nil (s1 : JSStr) : levRowFor s1 [] = List.range (s1.length + 1) := by
  rw [levRowFor, levRowTail_nil, levRecBack_nil_left]
  simp [List.range_eq_range', List.range'_succ]

/-- The last entry of a row is the distance for the full first string. -/
theorem levRowFor_getLast (t : JSStr) :
    ∀ (xs u : JSStr) (d : Nat),
      (levRecBack u t :: levRowTail t u xs).getLastD d = levRecBack (u ++ xs) t := by
  intro xs
  induction xs with
  | nil =>
    intro u d
    simp [levRowTail]
  | cons x xr ih =>
    intro u d
    rw [levRowTail, List.getLastD_cons, ih (u ++ [x])]
    simp

/-- The dynamic program of levenshteinDistance computes the textbook
unit-cost Levenshtein recurrence. -/
theorem levenshteinDistance_eq_levRecBack (s1 s2 : JSStr) :
    levenshteinDistance s1 s2 = levRecBack s1 s2 := by
  rw [levenshteinDistance, ← levRowFor_nil, levFold_row s1 s2 [], List.nil_append, levRowFor,
    levRowFor_getLast s2 s1 [] 0, List.nil_append]

/-- The default tolerance constant is the rational 0.1. -/
theorem default_matchTolerance_eq : DEFAULT_ANNOTATION_OPTIONS.matchTolerance = 1 / 10 := by
  rw [show DEFAULT_ANNOTATION_OPTIONS.matchTolerance
      = (((1 : ℤ) : ℚ) / ((10 : ℕ) : ℚ)) from (Rat.num_div_den _).symm]
  norm_num

end Lemmas

section Claims

/-- Claim C1 (code bug): with firstMatchOnly = true (the default) and no
page restriction, the page loop breaks after the first page even though
no strategy matched there, so a pattern absent from page 1 but present
verbatim on pages 2 and 4 yields no candidate at all instead of a
candidate on page 2.  The second conjunct shows the same pattern is found
at page 2 when the search is restricted there, so the miss is caused
purely by the break. -/
theorem c1_firstMatchOnly_breaks_after_first_page :
    findTextPosition
      ⟨[⟨1, "alpha alpha".toList⟩, ⟨2, "the hello mark".toList⟩,
        ⟨3, "beta".toList⟩, ⟨4, "the hello mark".toList⟩], 4⟩
      ⟨.highlight, "hello".toList, none, none, none, none⟩
      DEFAULT_ANNOTATION_OPTIONS = none ∧
    findTextPosition
      ⟨[⟨1, "alpha alpha".toList⟩, ⟨2, "the hello mark".toList⟩,
        ⟨3, "beta".toList⟩, ⟨4, "the hello mark".toList⟩], 4⟩
      ⟨.highlight, "hello".toList, some 2, none, none, none⟩
      DEFAULT_ANNOTATION_OPTIONS
      = some (createTextPosition 2 ("hello".toList) 4 ("hello".toList)) :=
  ⟨by decide, by decide⟩

/-- Claim C2 counterexample: an empty pattern is not treated as
guaranteed NotFound — the exact strategy matches it at offset 0 of the
first page and the per-instruction result succeeds; and a pattern longer
than the page text (60 characters against a 53-character page) still
matches through the Partial50 prefix strategy. -/
theorem c2_counterexample :
    ( applyAnnotation ⟨[⟨1, "hi there".toList⟩], 1⟩
        ⟨.highlight, [], none, none, none, none⟩ DEFAULT_ANNOTATION_OPTIONS).1.success
      = true ∧
    findTextMatch ⟨[⟨1, "hi there".toList⟩], 1⟩
        ⟨.highlight, [], none, none, none, none⟩ DEFAULT_ANNOTATION_OPTIONS
      = some ⟨1, .exact, 0, []⟩ ∧
    (findTextMatch
        ⟨[⟨1, ("abcdefghijabcdefghijabcdefghijabcdefghijabcdefghijxyz").toList⟩], 1⟩
        ⟨.highlight,
          ("abcdefghijabcdefghijabcdefghijabcdefghijabcdefghijabcdefghij").toList,
          none, none, none, none⟩ DEFAULT_ANNOTATION_OPTIONS).map (fun m => m.strategy)
      = some .part50 :=
  ⟨by decide, by decide, by decide⟩

/-- Claim C2 (amended): an instruction with empty pattern text is never
NotFound on a nonempty unrestricted page set: the exact strategy
fabricates a match at offset 0 with an empty matched substring on the
first page, and the per-instruction result succeeds; moreover (second
conjunct) a pattern longer than every page text can likewise still
succeed through the Partial50 prefix strategy, so neither degenerate
input is guaranteed NotFound, though the engine stays total. -/
theorem c2_empty_pattern_matches_at_zero (doc : ExtractedText)
    (instruction : AnnotationInstruction) (options : RequiredAnnotationOptions)
    (p : PageText) (rest : List PageText)
    (hpages : doc.pages = p :: rest) (htext : instruction.text = [])
    (hpage : instruction.pageNumber = none) :
    (findTextMatch doc instruction options = some ⟨p.pageNumber, .exact, 0, []⟩ ∧
      ( applyAnnotation doc instruction options).1.success = true) ∧
    (findTextMatch
        ⟨[⟨1, ("abcdefghijabcdefghijabcdefghijabcdefghijabcdefghijxyz").toList⟩], 1⟩
        ⟨.highlight,
          ("abcdefghijabcdefghijabcdefghijabcdefghijabcdefghijabcdefghij").toList,
          none, none, none, none⟩ DEFAULT_ANNOTATION_OPTIONS).map (fun m => m.strategy)
      = some .part50 := by
  refine ⟨?_, by decide⟩
  have hsearch : normalizeText (searchTextOf instruction) = [] := by
    rw [searchTextOf, htext]
    split <;> rfl
  have hsp : searchPage instruction options p = some ⟨p.pageNumber, .exact, 0, []⟩ := by
    rw [searchPage, hsearch, firstIndexOf_nil]
  have hpts : pagesToSearch doc instruction = p :: rest := by
    simp [pagesToSearch, hpage, hpages]
  have hfm : findTextMatch doc instruction options = some ⟨p.pageNumber, .exact, 0, []⟩ := by
    rw [findTextMatch, hpts]
    simp only [searchPages]
    rw [hsp]
  refine ⟨hfm, ?_⟩
  rw [ applyAnnotation, findTextPosition, hfm]
  rfl

/-- Witness for the amended C2 on a concrete two-page document. -/
theorem c2_witness :
    findTextMatch ⟨[⟨1, "page one".toList⟩, ⟨2, "page two".toList⟩], 2⟩
        ⟨.underline, [], none, none, none, none⟩ DEFAULT_ANNOTATION_OPTIONS
      = some ⟨1, .exact, 0, []⟩ ∧
    ( applyAnnotation ⟨[⟨1, "page one".toList⟩, ⟨2, "page two".toList⟩], 2⟩
        ⟨.underline, [], none, none, none, none⟩ DEFAULT_ANNOTATION_OPTIONS).1.success
      = true :=
  (c2_empty_pattern_matches_at_zero _ _ _ ⟨1, "page one".toList⟩ [⟨2, "page two".toList⟩]
    rfl rfl rfl).1

/-- Claim C3 counterexample: a restrictToPage outside [1, totalPages]
(here 99 on a 1-page document) is not surfaced as a distinct InvalidSpec
rejection: the instruction fails with exactly the same
"Text not found in document" error that a genuinely missing pattern
produces. -/
theorem c3_counterexample :
    ( applyAnnotation ⟨[⟨1, "hello world".toList⟩], 1⟩
        ⟨.highlight, "hello".toList, some 99, none, none, none⟩
        DEFAULT_ANNOTATION_OPTIONS).1.error
      = some ("Text not found in document".toList) ∧
    ( applyAnnotation ⟨[⟨1, "hello world".toList⟩], 1⟩
        ⟨.highlight, "zq".toList, none, none, none, none⟩
        DEFAULT_ANNOTATION_OPTIONS).1.error
      = some ("Text not found in document".toList) :=
  ⟨by decide, by decide⟩

/-- Claim C3 (amended): a truthy restrictToPage that matches no extracted
page — in particular any value outside [1, totalPages] when pages are
numbered contiguously from 1 — empties the page filter, so the
instruction fails with the ordinary not-found result (no distinct
InvalidSpec category); the engine neither throws nor aborts the rest of
the request, whose processing is per-instruction (see C10). -/
theorem c3_out_of_range_page_is_not_found (doc : ExtractedText)
    (instruction : AnnotationInstruction) (options : RequiredAnnotationOptions) (n : Nat)
    (hn : instruction.pageNumber = some n) (h0 : n ≠ 0)
    (habs : ∀ p ∈ doc.pages, p.pageNumber ≠ n) :
    ( applyAnnotation doc instruction options).1 =
      { instruction := instruction, success := false, matchedText := none, position := none,
        error := some ("Text not found in document".toList) } := by
  have hfilter : doc.pages.filter (fun p => p.pageNumber = n) = [] := by
    rw [List.filter_eq_nil_iff]
    intro p hp
    simpa using habs p hp
  have hfm : findTextMatch doc instruction options = none := by
    rw [findTextMatch]
    have hpts : pagesToSearch doc instruction = [] := by
      simp [pagesToSearch, hn, h0, hfilter]
    rw [hpts, searchPages]
  rw [ applyAnnotation, findTextPosition, hfm]
  rfl

/-- Witness for the amended C3: page 99 of a 1-page document. -/
theorem c3_witness :
    ( applyAnnotation ⟨[⟨1, "hello world".toList⟩], 1⟩
        ⟨.underline, "hello".toList, some 99, none, none, none⟩
        DEFAULT_ANNOTATION_OPTIONS).1 =
      { instruction := ⟨.underline, "hello".toList, some 99, none, none, none⟩,
        success := false, matchedText := none, position := none,
        error := some ("Text not found in document".toList) } :=
  c3_out_of_range_page_is_not_found _ _ _ 99 rfl (by decide) (by decide)

/-- Claim C4 counterexample: a Comment instruction with no comment body
succeeds and draws a callout whose body is the silently substituted
default string "Comment" — no error is reported. -/
theorem c4_counterexample :
    ( applyAnnotation ⟨[⟨1, "hello".toList⟩], 1⟩
        ⟨.comment, "hello".toList, none, none, none, none⟩
        DEFAULT_ANNOTATION_OPTIONS).1.success = true ∧
    ( applyAnnotation ⟨[⟨1, "hello".toList⟩], 1⟩
        ⟨.comment, "hello".toList, none, none, none, none⟩
        DEFAULT_ANNOTATION_OPTIONS).2
      = [DrawOp.comment (createTextPosition 1 ("hello".toList) 0 ("hello".toList))
          ("Comment".toList) (DEFAULT_COLORS .comment)] :=
  ⟨by decide, by decide⟩

/-- Claim C4 (amended): a Comment instruction whose body is missing or
empty is not rejected: whenever the text is located, the instruction
succeeds with no error and the callout is drawn with the default body
"Comment" substituted silently. -/
theorem c4_comment_body_defaulted (doc : ExtractedText)
    (instruction : AnnotationInstruction) (options : RequiredAnnotationOptions)
    (pos : TextPosition) (htype : instruction.type = .comment)
    (hbody : instruction.comment = none ∨ instruction.comment = some [])
    (hfound : findTextPosition doc instruction options = some pos) :
    ( applyAnnotation doc instruction options).1.success = true ∧
    ( applyAnnotation doc instruction options).1.error = none ∧
    ( applyAnnotation doc instruction options).2 =
      [DrawOp.comment pos ("Comment".toList)
        (jsOrColor instruction.color (DEFAULT_COLORS instruction.type))] := by
  rw [ applyAnnotation, hfound]
  refine ⟨rfl, rfl, ?_⟩
  rw [htype]
  rcases hbody with h | h <;> simp [jsOrString, h]

/-- Witness for the amended C4 on a concrete document. -/
theorem c4_witness :
    ( applyAnnotation ⟨[⟨1, "hello".toList⟩], 1⟩
        ⟨.comment, "hello".toList, none, none, some [], none⟩
        DEFAULT_ANNOTATION_OPTIONS).1.success = true ∧
    ( applyAnnotation ⟨[⟨1, "hello".toList⟩], 1⟩
        ⟨.comment, "hello".toList, none, none, some [], none⟩
        DEFAULT_ANNOTATION_OPTIONS).1.error = none ∧
    ( applyAnnotation ⟨[⟨1, "hello".toList⟩], 1⟩
        ⟨.comment, "hello".toList, none, none, some [], none⟩
        DEFAULT_ANNOTATION_OPTIONS).2 =
      [DrawOp.comment (createTextPosition 1 ("hello".toList) 0 ("hello".toList))
        ("Comment".toList)
        (jsOrColor none (DEFAULT_COLORS AnnotationType.comment))] :=
  c4_comment_body_defaulted _ _ _ _ rfl (Or.inr rfl) (by decide)

/-- Claim C5: whenever the fuzzy search reports a candidate, the edit
distance between the matched window and the pattern is at most
floor(len(pattern) * toleranceFraction); no candidate is reported
(index -1) when every window at a scanned offset exceeds that bound; and
the edit distance the code computes is exactly the unit-cost Levenshtein
distance (levenshteinDistance equals the textbook recurrence
levRecBack). -/
theorem c5_fuzzy_distance_within_tolerance (text pattern : JSStr) (tolerance : ℚ) :
    ((fuzzySearchWithNormalization text pattern tolerance).index ≠ -1 →
      ((levenshteinDistance
          (fuzzySearchWithNormalization text pattern tolerance).matchedText pattern : ℤ)
        ≤ ⌊(pattern.length : ℚ) * tolerance⌋)) ∧
    ((∀ i ∈ fuzzyScanOffsets text pattern,
        ⌊(pattern.length : ℚ) * tolerance⌋ <
          (levenshteinDistance (jsSubstring text i (i + pattern.length)) pattern : ℤ)) →
      (fuzzySearchWithNormalization text pattern tolerance).index = -1) ∧
    (∀ a b : JSStr, levenshteinDistance a b = levRecBack a b) := by
  refine ⟨?_, ?_, fun a b => levenshteinDistance_eq_levRecBack a b⟩
  · intro hne
    rcases fuzzySearch_inv text pattern tolerance with h | ⟨i, _, _, _, _, hbound⟩
    · exact absurd h.1 hne
    · rw [← jsFloorMul_eq_floor]
      exact hbound
  · intro hall
    have h0 : ∀ i ∈ fuzzyScanOffsets text pattern,
        jsFloorMul pattern.length tolerance <
          (levenshteinDistance (jsSubstring text i (i + pattern.length)) pattern : ℤ) := by
      intro i hi
      rw [jsFloorMul_eq_floor]
      exact hall i hi
    rw [fuzzySearchWithNormalization, fuzzyLoop_none text pattern _ _ _ h0]

/-- Witness for C5: a window at distance 1 within tolerance 1/5 of an
8-character pattern, and a fruitless scan reporting -1. -/
theorem c5_witness :
    ((levenshteinDistance
        (fuzzySearchWithNormalization ("abcdefgh".toList) ("abcdefgx".toList)
          ⟨1, 5, by decide, by decide⟩).matchedText ("abcdefgx".toList) : ℤ)
      ≤ ⌊((("abcdefgx".toList).length : ℕ) : ℚ) * (⟨1, 5, by decide, by decide⟩ : ℚ)⌋) ∧
    (fuzzySearchWithNormalization ("abc".toList) ("xyz".toList)
        ⟨1, 10, by decide, by decide⟩).index = -1 :=
  ⟨(c5_fuzzy_distance_within_tolerance _ _ _).1 (by decide),
   (c5_fuzzy_distance_within_tolerance _ _ _).2.1 (by
     simp only [← jsFloorMul_eq_floor]
     decide)⟩

/-- Claim C8 counterexample: the estimated y coordinate is not clamped:
at character offset 4000 it is -100, strictly below the page (and hence
below any nonnegative bottom margin). -/
theorem c8_counterexample :
    (createTextPosition 1 [] 4000 []).y = -100 ∧ (createTextPosition 1 [] 4000 []).y < 0 :=
  ⟨by decide, by decide⟩

/-- Claim C8 (amended): the estimate is exactly x = 50,
width = 6 * len(matchedSubstring), height = 12 and
y = 700 - floor(charOffset / 100) * 20 with no clamping: y is antitone in
charOffset and becomes arbitrarily negative, so it does fall below any
fixed bottom margin for large offsets. -/
theorem c8_estimate_formula_unclamped :
    (∀ (page : Nat) (orig matched : JSStr) (charIndex : Nat),
      createTextPosition page orig charIndex matched =
        { pageNumber := page, text := orig, x := 50,
          y := 700 - ((charIndex / 100 : Nat) : ℤ) * 20,
          width := matched.length * 6, height := 12 }) ∧
    (∀ (page : Nat) (orig matched : JSStr) (c₁ c₂ : Nat), c₁ ≤ c₂ →
      (createTextPosition page orig c₂ matched).y ≤
        (createTextPosition page orig c₁ matched).y) ∧
    (∀ B : ℤ, ∃ c : Nat, (createTextPosition 1 [] c []).y < B) := by
  refine ⟨fun _ _ _ _ => rfl, ?_, ?_⟩
  · intro page orig matched c₁ c₂ h
    have hdiv : c₁ / 100 ≤ c₂ / 100 := Nat.div_le_div_right h
    simp only [createTextPosition]
    omega
  · intro B
    refine ⟨100 * (B.natAbs + 800), ?_⟩
    have hdiv : 100 * (B.natAbs + 800) / 100 = B.natAbs + 800 :=
      Nat.mul_div_cancel_left _ (by norm_num)
    simp only [createTextPosition, hdiv]
    omega

/-- Witness for the amended C8: offsets 100 and 4000. -/
theorem c8_witness :
    (createTextPosition 1 [] 4000 []).y ≤ (createTextPosition 1 [] 100 []).y :=
  c8_estimate_formula_unclamped.2.1 1 [] [] 100 4000 (by norm_num)

/-- Claim C9 counterexample: the default fuzzy tolerance is 0.1, not
0.15. -/
theorem c9_counterexample :
    DEFAULT_ANNOTATION_OPTIONS.matchTolerance = 1 / 10 ∧
    DEFAULT_ANNOTATION_OPTIONS.matchTolerance ≠ 15 / 100 :=
  ⟨default_matchTolerance_eq, by rw [default_matchTolerance_eq]; norm_num⟩

/-- Claim C9 (amended): with no caller options the merged options are the
defaults, whose tolerance is 0.1 (not 0.15) and whose firstMatchOnly is
true; an instruction without a caseSensitive flag is matched
case-insensitively (its search text is lowered). -/
theorem c9_default_options :
    mergeOptions none = DEFAULT_ANNOTATION_OPTIONS ∧
    DEFAULT_ANNOTATION_OPTIONS.matchTolerance = 1 / 10 ∧
    DEFAULT_ANNOTATION_OPTIONS.firstMatchOnly = true ∧
    (∀ instruction : AnnotationInstruction, instruction.caseSensitive = none →
      searchTextOf instruction = toLowerStr instruction.text) := by
  refine ⟨rfl, default_matchTolerance_eq, rfl, ?_⟩
  intro instruction h
  simp [searchTextOf, jsTruthy, h]

/-- Witness for the amended C9: a concrete instruction with no
caseSensitive flag. -/
theorem c9_witness :
    searchTextOf ⟨AnnotationType.highlight, "AbC".toList, none, none, none, none⟩
      = toLowerStr ("AbC".toList) :=
  c9_default_options.2.2.2 ⟨AnnotationType.highlight, "AbC".toList, none, none, none, none⟩ rfl

/-- Claim C10: annotatePDF returns exactly one result per instruction,
in input order and each depending only on its own instruction (so one
failure cannot affect the others), the response always carries the
annotated buffer, and the top-level success flag is true exactly when at
least one instruction succeeded. -/
theorem c10_per_instruction_results (doc : ExtractedText) (request : AnnotationRequest) :
    (annotatePDF doc request).results =
      request.instructions.map
        (fun instruction => ( applyAnnotation doc instruction (mergeOptions request.options)).1) ∧
    (annotatePDF doc request).results.length = request.instructions.length ∧
    ((annotatePDF doc request).success = true ↔
      ∃ r ∈ (annotatePDF doc request).results, r.success = true) ∧
    (annotatePDF doc request).pdfBuffer = true := by
  refine ⟨rfl, by simp [annotatePDF], ?_, rfl⟩
  have hsucc : (annotatePDF doc request).success
      = decide (0 < ((annotatePDF doc request).results.filter (fun r => r.success)).length) :=
    rfl
  rw [hsucc, decide_eq_true_eq, ← List.countP_eq_length_filter]
  exact List.countP_pos_iff

/-- Claim C6: every successful match of any strategy reports an in-page
window: the character offset is a natural number (hence nonnegative) and
offset plus matched-substring length is at most the length of the
normalized text of the page the match is reported on. -/
theorem c6_match_offsets_in_bounds (doc : ExtractedText)
    (instruction : AnnotationInstruction) (options : RequiredAnnotationOptions)
    (m : TextMatch) (h : findTextMatch doc instruction options = some m) :
    ∃ p ∈ doc.pages, p.pageNumber = m.pageNumber ∧
      m.charIndex + m.matchedText.length ≤
        (normalizeText (effectivePageText instruction p)).length := by
  rw [findTextMatch] at h
  obtain ⟨p, hp, hsp⟩ := searchPages_some _ instruction options m h
  obtain ⟨h1, h2⟩ := searchPage_some instruction options p m hsp
  exact ⟨p, pagesToSearch_subset doc instruction p hp, h1.symm, h2⟩

/-- Witness for C6 on a concrete one-page document and exact match. -/
theorem c6_witness :
    ∃ p ∈ ([⟨1, "say hello world".toList⟩] : List PageText),
      p.pageNumber = (⟨1, Strategy.exact, 4, "hello".toList⟩ : TextMatch).pageNumber ∧
      (⟨1, Strategy.exact, 4, "hello".toList⟩ : TextMatch).charIndex
          + (⟨1, Strategy.exact, 4, "hello".toList⟩ : TextMatch).matchedText.length ≤
        (normalizeText (effectivePageText
          ⟨AnnotationType.highlight, "hello".toList, none, none, none, none⟩ p)).length :=
  c6_match_offsets_in_bounds ⟨[⟨1, "say hello world".toList⟩], 1⟩
    ⟨AnnotationType.highlight, "hello".toList, none, none, none, none⟩
    DEFAULT_ANNOTATION_OPTIONS ⟨1, Strategy.exact, 4, "hello".toList⟩ (by decide)

/-- Claim C7: normalizeText is idempotent; its output has no whitespace
other than single interior ASCII spaces (whitespace runs are collapsed,
nothing else than a space survives as whitespace, and the ends are
trimmed); curly quotes map to ASCII quotes, en and em dashes to the
hyphen, and the sample collapses as the spec lists. -/
theorem c7_normalize_idempotent :
    (∀ x : JSStr, normalizeText (normalizeText x) = normalizeText x) ∧
    normalizeText ("a\n\t  b".toList) = "a b".toList ∧
    normalizeText ("‘x’".toList) = "'x'".toList ∧
    normalizeText ("“y”".toList) = "\"y\"".toList ∧
    normalizeText ("–".toList) = "-".toList ∧
    normalizeText ("—".toList) = "-".toList ∧
    (∀ x : JSStr, allWsSpace (normalizeText x) = true ∧
      noWsRun false (normalizeText x) = true ∧
      (∀ d, (normalizeText x).head? = some d → isJsWs d = false) ∧
      (∀ d, (normalizeText x).getLast? = some d → isJsWs d = false)) := by
  refine ⟨normalizeText_idem, by decide, by decide, by decide, by decide, by decide, ?_⟩
  intro x
  refine ⟨?_, ?_, fun d hd => trimWs_head _ d (by rwa [normalizeText_eq_charMap] at hd),
    fun d hd => trimWs_last _ d (by rwa [normalizeText_eq_charMap] at hd)⟩
  · rw [normalizeText_eq_charMap]
    exact allWsSpace_trimWs _ (allWsSpace_map _ (collapseWsAux_allWs x false))
  · rw [normalizeText_eq_charMap]
    refine noWsRun_trimWs _ false ?_
    rw [noWsRun_map]
    exact collapseWsAux_noWsRun x false

/-- Witness for C7: idempotence and endpoint facts at concrete strings. -/
theorem c7_witness :
    normalizeText (normalizeText (" a\n\nb ".toList)) = normalizeText (" a\n\nb ".toList) ∧
    isJsWs 'x' = false :=
  ⟨c7_normalize_idempotent.1 (" a\n\nb ".toList),
   (c7_normalize_idempotent.2.2.2.2.2.2 ("x y".toList)).2.2.1 'x' (by decide)⟩

end Claims

end AiAnnotate
